import Mathlib

/-!
Verification of the aggregation-and-filtering engine of the header ABI
linker (`vndk/tools/header-checker/header-abi-linker/src/header_abi_linker.cpp`).

The development embeds, as executable Lean definitions:

* the de-duplicating merge of per-translation-unit ABI graphs performed by
  `DeDuplicateAbiElementsThread` with its batch cursor (`cnt->fetch_add`),
* the wildcard/regex compilation of `CreateRegexMatchExprFromSet` and the
  memoized matching of `QueryRegexMatches`,
* the per-category filtering loop `HeaderAbiLinker::LinkDecl` together with
  `LinkTypes`, `LinkFunctions`, `LinkGlobalVars`,
* the orchestration of `HeaderAbiLinker::LinkAndDump` and `main`.

External collaborators (IR reader/writer, version-script parser, shared-object
parser, the C++ standard library containers and regex engine) are modelled by
their interface behavior, as the spec directs.
-/

/-- The entity categories of a decoded ABI graph, in the fixed order the
linker walks them (`LinkTypes`, then `LinkFunctions`, then `LinkGlobalVars`). -/
inductive Category
  | recordTypes
  | enumTypes
  | functionTypes
  | builtinTypes
  | pointerTypes
  | rvalueReferenceTypes
  | lvalueReferenceTypes
  | arrayTypes
  | qualifiedTypes
  | functions
  | globalVariables
deriving DecidableEq

/-- A declaration key scoped to its category: the merged graph is a map per
category keyed by linker-set key. -/
abbrev DeclKey := Category × String

/-- One declaration of a decoded graph: its (category, key) identity and an
opaque descriptor payload (the linker never interprets descriptor content). -/
abbrev GEntry := DeclKey × Nat

/-- A decoded ABI graph: the per-category keyed collections of one
`TextFormatToIRReader`, flattened into a single association list keyed by
(category, key). -/
abbrev AbiGraph := List GEntry

/-- The (category, key) identities present in a graph. -/
def gkeys (g : AbiGraph) : List DeclKey := g.map Prod.fst

/-- Modelled from the spec: inserting one declaration during a merge.  The
merge is a per-category union by declaration key (spec 4.3); when both sides
hold the same key either descriptor may be kept, so the model keeps the
first.  (`TextFormatToIRReader::MergeGraphs` itself is declared in
`ir_representation.h`, outside the given sources.) -/
def addEntry (g : AbiGraph) (e : GEntry) : AbiGraph :=
  if e.1 ∈ gkeys g then g else g ++ [e]

/-- Modelled from the spec: `TextFormatToIRReader::MergeGraphs` merges the
source graph into the destination graph as a per-category union by
declaration key. -/
def MergeGraphs (dst src : AbiGraph) : AbiGraph := src.foldl addEntry dst

theorem gkeys_append (g h : AbiGraph) : gkeys (g ++ h) = gkeys g ++ gkeys h :=
  List.map_append _ _ _

theorem mem_gkeys_addEntry (g : AbiGraph) (e : GEntry) (x : DeclKey) :
    x ∈ gkeys (addEntry g e) ↔ x ∈ gkeys g ∨ x = e.1 := by
  unfold addEntry
  by_cases h : e.1 ∈ gkeys g
  · simp only [if_pos h]
    constructor
    · exact Or.inl
    · rintro (hx | rfl)
      · exact hx
      · exact h
  · simp only [if_neg h, gkeys_append]
    simp [gkeys]

theorem nodup_gkeys_addEntry (g : AbiGraph) (e : GEntry)
    (h : (gkeys g).Nodup) : (gkeys (addEntry g e)).Nodup := by
  unfold addEntry
  by_cases hm : e.1 ∈ gkeys g
  · simpa [if_pos hm] using h
  · simp only [if_neg hm, gkeys_append]
    simp only [gkeys, List.map_cons, List.map_nil]
    refine List.Nodup.append h (List.nodup_singleton _) ?_
    intro a ha hb
    rw [List.mem_singleton] at hb
    exact hm (hb ▸ ha)

theorem mem_gkeys_mergeGraphs (src : AbiGraph) :
    ∀ (dst : AbiGraph) (x : DeclKey),
      x ∈ gkeys (MergeGraphs dst src) ↔ x ∈ gkeys dst ∨ x ∈ gkeys src := by
  induction src with
  | nil => intro dst x; simp [MergeGraphs, gkeys]
  | cons e src ih =>
      intro dst x
      have hstep : MergeGraphs dst (e :: src) = MergeGraphs (addEntry dst e) src := rfl
      rw [hstep, ih, mem_gkeys_addEntry]
      simp only [gkeys, List.map_cons, List.mem_cons]
      constructor
      · rintro ((hx | rfl) | hx)
        · exact Or.inl hx
        · exact Or.inr (Or.inl rfl)
        · exact Or.inr (Or.inr hx)
      · rintro (hx | (rfl | hx))
        · exact Or.inl (Or.inl hx)
        · exact Or.inl (Or.inr rfl)
        · exact Or.inr hx

theorem nodup_gkeys_mergeGraphs (src : AbiGraph) :
    ∀ dst : AbiGraph, (gkeys dst).Nodup → (gkeys (MergeGraphs dst src)).Nodup := by
  induction src with
  | nil => intro dst h; simpa [MergeGraphs] using h
  | cons e src ih =>
      intro dst h
      exact ih (addEntry dst e) (nodup_gkeys_addEntry dst e h)

theorem mem_gkeys_foldl_merge (gs : List AbiGraph) :
    ∀ (init : AbiGraph) (x : DeclKey),
      x ∈ gkeys (gs.foldl MergeGraphs init) ↔
        x ∈ gkeys init ∨ ∃ g ∈ gs, x ∈ gkeys g := by
  induction gs with
  | nil => intro init x; simp
  | cons g gs ih =>
      intro init x
      rw [List.foldl_cons, ih, mem_gkeys_mergeGraphs]
      constructor
      · rintro ((hx | hx) | ⟨g', hg', hx⟩)
        · exact Or.inl hx
        · exact Or.inr ⟨g, List.mem_cons_self _ _, hx⟩
        · exact Or.inr ⟨g', List.mem_cons_of_mem _ hg', hx⟩
      · rintro (hx | ⟨g', hg', hx⟩)
        · exact Or.inl (Or.inl hx)
        · rcases List.mem_cons.mp hg' with rfl | hg'
          · exact Or.inl (Or.inr hx)
          · exact Or.inr ⟨g', hg', hx⟩

theorem nodup_gkeys_foldl_merge (gs : List AbiGraph) :
    ∀ init : AbiGraph, (gkeys init).Nodup →
      (gkeys (gs.foldl MergeGraphs init)).Nodup := by
  induction gs with
  | nil => intro init h; simpa using h
  | cons g gs ih =>
      intro init h
      exact ih _ (nodup_gkeys_mergeGraphs g init h)

/-- Batch size constant `kSourcesPerBatchThread` of the source. -/
def kSourcesPerBatchThread : Nat := 7

/-- The dump-file indices decoded by one claim of the batch cursor, from the
source of `DeDuplicateAbiElementsThread`: after `i = cnt->fetch_add(k)` the
loop computes `end = min(i + k, num_sources)` and then iterates `it` from
`begin_it` (not `begin_it + i`) up to `begin_it + end`, so indices
`0, ..., end - 1` are decoded. -/
def decodedIndices (k n i : Nat) : List Nat := List.range (min (i + k) n)

/-- The indices of the claimed batch itself as the spec describes it:
`i, ..., min(i + k, n) - 1`.  Stated from the spec's words for comparison
with `decodedIndices`. -/
def batchIndices (k n i : Nat) : List Nat := (List.range (min (i + k) n)).drop i

/-- The batch starting offsets handed out by the shared atomic cursor over a
run: `0, k, 2k, ...` while the fetched value is below `num_sources` (a fetch
at or beyond `num_sources` breaks the worker loop). -/
def claimedOffsets (k n : Nat) : List Nat :=
  (List.range ((n + k - 1) / k)).map (fun b => b * k)

/-- The sequence of decoded graphs produced by one claim of offset `i`:
the worker decodes each dump file of `decodedIndices` in order. -/
def claimDecode (k : Nat) (files : List AbiGraph) (i : Nat) : List AbiGraph :=
  (decodedIndices k files.length i).map (fun j => files.getD j [])

/-- The thread-local graph of one worker: starting from a fresh local reader
it merges every decoded dump of every batch offset it claimed, in order. -/
def workerLocal (k : Nat) (files : List AbiGraph) (cs : List Nat) : AbiGraph :=
  (cs.flatMap (claimDecode k files)).foldl MergeGraphs []

/-- The shared merged graph after all workers finish: each worker merges its
local graph into the (initially empty) shared reader under the mutex; the
`assignment` lists which cursor offsets each worker claimed. -/
def finalGraph (k : Nat) (files : List AbiGraph)
    (assignment : List (List Nat)) : AbiGraph :=
  (assignment.map (workerLocal k files)).foldl MergeGraphs []

theorem claimedOffsets_cover (k n : Nat) (hk : 0 < k) (hn : 0 < n) :
    ∃ i ∈ claimedOffsets k n, n ≤ i + k := by
  have hdm := Nat.div_add_mod (n + k - 1) k
  have hr : (n + k - 1) % k < k := Nat.mod_lt _ hk
  set q := (n + k - 1) / k with hq
  have hq1 : 1 ≤ q := by
    rcases Nat.eq_zero_or_pos q with h0 | h
    · rw [h0, Nat.mul_zero] at hdm
      omega
    · exact h
  obtain ⟨q', hq'⟩ : ∃ q', q = q' + 1 := ⟨q - 1, by omega⟩
  refine ⟨(q - 1) * k, List.mem_map.mpr ⟨q - 1, List.mem_range.mpr (by omega), rfl⟩, ?_⟩
  have h2 : (q - 1) * k + k = k * q := by
    rw [hq']
    simp only [Nat.add_sub_cancel]
    ring
  omega

/-- C1: for every sequence of input dump files, every declaration key present
in any input dump is present in the final merged graph, each category of the
merged graph contains each declaration key at most once, and this holds for
every batch size and every way the claimed batch offsets are distributed
among the workers. -/
theorem merged_graph_union_complete_nodup (k : Nat) (files : List AbiGraph)
    (assignment : List (List Nat)) (hk : 0 < k)
    (hperm : List.Perm assignment.flatten (claimedOffsets k files.length)) :
    (∀ x : DeclKey,
        x ∈ gkeys (finalGraph k files assignment) ↔ ∃ g ∈ files, x ∈ gkeys g) ∧
    (gkeys (finalGraph k files assignment)).Nodup := by
  constructor
  · intro x
    unfold finalGraph
    rw [mem_gkeys_foldl_merge]
    constructor
    · rintro (hx | ⟨wl, hwl, hx⟩)
      · simp [gkeys] at hx
      · obtain ⟨cs, hcs, rfl⟩ := List.mem_map.mp hwl
        unfold workerLocal at hx
        rw [mem_gkeys_foldl_merge] at hx
        rcases hx with hx | ⟨dg, hdg, hx⟩
        · simp [gkeys] at hx
        · obtain ⟨i, hi, hdg2⟩ := List.mem_flatMap.mp hdg
          unfold claimDecode decodedIndices at hdg2
          obtain ⟨j, hj, rfl⟩ := List.mem_map.mp hdg2
          have hjr := List.mem_range.mp hj
          have hjn : j < files.length :=
            lt_of_lt_of_le hjr (min_le_right _ _)
          refine ⟨files.getD j [], ?_, hx⟩
          rw [List.getD_eq_getElem?_getD, List.getElem?_eq_getElem hjn]
          exact List.getElem_mem hjn
    · rintro ⟨g, hg, hx⟩
      obtain ⟨idx, hidx, rfl⟩ := List.mem_iff_getElem.mp hg
      have hn : 0 < files.length := Nat.pos_of_ne_zero (by omega)
      obtain ⟨imax, himax, hcov⟩ :=
        claimedOffsets_cover k files.length hk hn
      have himem : imax ∈ assignment.flatten := hperm.mem_iff.mpr himax
      obtain ⟨cs, hcs, hics⟩ := List.mem_flatten.mp himem
      refine Or.inr ⟨workerLocal k files cs, List.mem_map_of_mem _ hcs, ?_⟩
      unfold workerLocal
      rw [mem_gkeys_foldl_merge]
      refine Or.inr ⟨files.getD idx [], ?_, ?_⟩
      · refine List.mem_flatMap.mpr ⟨imax, hics, ?_⟩
        unfold claimDecode decodedIndices
        exact List.mem_map_of_mem _
          (List.mem_range.mpr (lt_min (by omega) hidx))
      · rw [List.getD_eq_getElem?_getD, List.getElem?_eq_getElem hidx]
        exact hx
  · exact nodup_gkeys_foldl_merge _ _ (by simp [gkeys])

theorem merged_graph_union_complete_nodup_witness :
    (0 < 7 ∧
      List.Perm ([[0]] : List (List Nat)).flatten (claimedOffsets 7 1)) ∧
    (gkeys (finalGraph 7 [[((Category.functions, "f1"), 0)]] [[0]])).Nodup :=
  ⟨⟨by decide, by decide⟩,
    (merged_graph_union_complete_nodup 7 [[((Category.functions, "f1"), 0)]]
      [[0]] (by decide) (by decide)).2⟩

/-- C2: the source deviates from its batch design here (a slip in the code,
not in the claim).  A worker that claims batch starting offset `i` decodes
the dump files at indices `0, ..., min(i + 7, n) - 1` — the loop of
`DeDuplicateAbiElementsThread` starts at `begin_it`, not `begin_it + i` —
instead of only the files of its claimed batch, contradicting the cursor
design and the source's own comment about non-contiguous batch iterators:
with 8 dump files, the claim of offset 7 decodes all eight files although
its batch is only index 7. -/
theorem batch_decode_reads_whole_prefix :
    decodedIndices kSourcesPerBatchThread 8 7 = [0, 1, 2, 3, 4, 5, 6, 7] ∧
    batchIndices kSourcesPerBatchThread 8 7 = [7] ∧
    decodedIndices kSourcesPerBatchThread 8 7 ≠
      batchIndices kSourcesPerBatchThread 8 7 := by
  decide

/-- Word characters for the ECMAScript word-boundary assertion `\b` used by
the generated expressions: alphanumerics and the underscore. -/
def isWordChar (c : Char) : Bool := c.isAlphanum || c = '_'

/-- The token alphabet of the compiled wildcard expressions: a literal
character, the any-character atom `.`, and the any-substring atom `.*`. -/
inductive GlobTok
  | lit (c : Char)
  | anyChar
  | anyStr
deriving DecidableEq

/-- Modelled from the spec: `abi_util::FindAndReplace(str, "\\*", ".*")`
(declared in `header_abi_util.h`, outside the given sources) replaces every
occurrence of the literal character `*` with the two characters `.*`. -/
def FindAndReplaceStar : List Char → List Char
  | [] => []
  | c :: rest =>
    if c = '*' then '.' :: '*' :: FindAndReplaceStar rest
    else c :: FindAndReplaceStar rest

/-- One alternative of the generated expression, from the source of
`CreateRegexMatchExprFromSet`: the glob-rewritten pattern wrapped in
word-boundary anchors and a group. -/
def regexPiece (p : String) : String :=
  "(\\b" ++ String.mk (FindAndReplaceStar p.data) ++ "\\b)"

/-- The alternation string accumulated by the loop of
`CreateRegexMatchExprFromSet`: each pattern contributes its anchored group,
and a `|` separator is appended between consecutive groups. -/
def buildAlternation : List String → String
  | [] => ""
  | [p] => regexPiece p
  | p :: rest => regexPiece p ++ "|" ++ buildAlternation rest

/-- `CreateRegexMatchExprFromSet` from the source: the accumulated
alternation string, except that an empty accumulation yields the
default-constructed `std::regex()`, modelled as `none` (a default-constructed
regex matches no character sequence). -/
def CreateRegexMatchExprFromSet (linkSet : List String) : Option String :=
  let all := buildAlternation linkSet
  if all = "" then none else some all

/-- Splitting the generated expression at top-level `|` alternation
separators (the generated pieces themselves never contain `|`). -/
def splitOnPipe : List Char → List (List Char)
  | [] => [[]]
  | c :: rest =>
    if c = '|' then [] :: splitOnPipe rest
    else
      match splitOnPipe rest with
      | [] => [[c]]
      | g :: gs => (c :: g) :: gs

/-- Parser for the body of one anchored group, up to and including its
closing `\b)`: `.`followed by `*` reads as the any-substring atom, a lone `.`
as the any-character atom, a word character as a literal.  Characters outside
this fragment (which the generated expressions for word-character-and-glob
pattern sets never contain) are rejected. -/
def parseBody : List Char → Option (List GlobTok)
  | [] => none
  | c :: rest =>
    if c = '\\' ∧ rest = ['b', ')'] then some []
    else if c = '.' then
      match rest with
      | [] => none
      | d :: rest' =>
        if d = '*' then (parseBody rest').map (fun ts => GlobTok.anyStr :: ts)
        else (parseBody (d :: rest')).map (fun ts => GlobTok.anyChar :: ts)
    else if isWordChar c then (parseBody rest).map (fun ts => GlobTok.lit c :: ts)
    else none

/-- Parser for one anchored group `(\b ... \b)` of the generated
expression. -/
def parsePiece (s : List Char) : Option (List GlobTok) :=
  match s with
  | '(' :: '\\' :: 'b' :: rest => parseBody rest
  | _ => none

/-- Parser for a list of anchored groups; any unparsable group rejects the
whole expression. -/
def parsePieces : List (List Char) → Option (List (List GlobTok))
  | [] => some []
  | s :: rest =>
    match parsePiece s with
    | none => none
    | some ts => (parsePieces rest).map (fun tss => ts :: tss)

/-- Parser for the whole generated alternation. -/
def parseAlternation (s : List Char) : Option (List (List GlobTok)) :=
  parsePieces (splitOnPipe s)

/-- The suffixes of a character list, longest first. -/
def suffixes : List Char → List (List Char)
  | [] => [[]]
  | c :: rest => (c :: rest) :: suffixes rest

/-- Token-list matching against an exact character sequence: `lit` matches
itself, `anyChar` any one character, `anyStr` any substring. -/
def toksMatch : List GlobTok → List Char → Bool
  | [], s => s.isEmpty
  | GlobTok.lit c :: ts, s =>
    match s with
    | [] => false
    | x :: xs => c = x && toksMatch ts xs
  | GlobTok.anyChar :: ts, s =>
    match s with
    | [] => false
    | _ :: xs => toksMatch ts xs
  | GlobTok.anyStr :: ts, s => (suffixes s).any (fun suf => toksMatch ts suf)

/-- Whether position `i` of `s` (between characters; `0` is before the first
character, `s.length` after the last) is an ECMAScript word boundary: the
word-ness of the adjacent positions differs, out-of-range counting as
non-word. -/
def wordAt (s : List Char) (i : Nat) : Bool :=
  match s.drop i with
  | [] => false
  | c :: _ => isWordChar c

def wordBoundaryAt (s : List Char) (i : Nat) : Bool :=
  (if i = 0 then false else wordAt s (i - 1)) != wordAt s i

/-- Unanchored search of one `\b ... \b` group within a key: some slice
`[i, j)` of the key matches the tokens with word boundaries at both ends. -/
def searchAnchored (ts : List GlobTok) (s : List Char) : Bool :=
  (List.range (s.length + 1)).any fun i =>
    (List.range (s.length + 1)).any fun j =>
      decide (i ≤ j) && wordBoundaryAt s i && wordBoundaryAt s j &&
        toksMatch ts ((s.drop i).take (j - i))

/-- Model of `std::regex_search(symbol, expr)` for the expressions generated
by `CreateRegexMatchExprFromSet` over word-character-and-glob pattern sets:
the alternation succeeds somewhere in the symbol iff some alternative's
anchored group matches some slice of it. -/
def regexSearch (expr : String) (symbol : String) : Bool :=
  match parseAlternation expr.data with
  | none => false
  | some branches => branches.any (fun ts => searchAnchored ts symbol.data)

/-- Search against an optional expression; `none` is the default-constructed
`std::regex()`, which matches nothing. -/
def regexSearchOpt : Option String → String → Bool
  | none, _ => false
  | some expr, symbol => regexSearch expr symbol

/-- `QueryRegexMatches` from the source: a symbol already recorded in the
matched set is reported as not matching; otherwise a regex hit records the
symbol and reports a match. -/
def QueryRegexMatches (matched : List String) (expr : Option String)
    (symbol : String) : Bool × List String :=
  if symbol ∈ matched then (false, matched)
  else if regexSearchOpt expr symbol then (true, symbol :: matched)
  else (false, matched)

/-- The direct token reading of one pattern under the source's compilation:
`*` becomes the any-substring atom, `.` stays a regex any-character atom
(nothing is escaped), every other character is literal. -/
def globToks : List Char → List GlobTok
  | [] => []
  | c :: rest =>
    if c = '*' then GlobTok.anyStr :: globToks rest
    else if c = '.' then GlobTok.anyChar :: globToks rest
    else GlobTok.lit c :: globToks rest

/-- Modelled from the spec: the compilation the spec asks for, which escapes
every pattern character except the `*` wildcard, so that `.` and the other
regex-significant characters match only themselves literally.  Stated from
the spec's words for comparison with the source's compilation. -/
def specEscapedToks (p : List Char) : List GlobTok :=
  p.map fun c => if c = '*' then GlobTok.anyStr else GlobTok.lit c

/-- Modelled from the spec: matching a key against an escaped-compilation
pattern set, with the same word-boundary anchoring. -/
def specEscapedSetSearch (pats : List String) (key : String) : Bool :=
  pats.any fun p => searchAnchored (specEscapedToks p.data) key.data

/-- One declaration as `LinkDecl` sees it: its linker-set key
(`element.first`) and its source-file provenance (`GetSourceFile()`, empty
for builtins). -/
structure Elem where
  key : String
  sourceFile : String
deriving DecidableEq

/-- The skip condition of `HeaderAbiLinker::LinkDecl`: a declaration is
filtered out when the exported header set is non-empty, its source file is
non-empty, and the source file is not among the exported headers. -/
def ProvenanceSkip (hdrs : List String) (e : Elem) : Prop :=
  hdrs ≠ [] ∧ e.sourceFile ≠ "" ∧ e.sourceFile ∉ hdrs

instance (hdrs : List String) (e : Elem) : Decidable (ProvenanceSkip hdrs e) := by
  unfold ProvenanceSkip
  infer_instance

/-- `HeaderAbiLinker::LinkDecl` from the source: walk the category's
declarations in order; skip those the provenance filter rejects; consult the
(stateful) symbol filter — its state advances even on a reject, as the C++
member sets do; forward survivors to `IRDumper::AddLinkableMessageIR` and
abort with failure as soon as the sink rejects one.  The result is the
success flag, the final filter state, and the forwarded declarations in
order. -/
def LinkDecl {σ : Type} (hdrs : List String) (sink : Elem → Bool)
    (filt : String → σ → Bool × σ) : List Elem → σ → Bool × σ × List Elem
  | [], s => (true, s, [])
  | e :: rest, s =>
    if ProvenanceSkip hdrs e then LinkDecl hdrs sink filt rest s
    else if (filt e.key s).1 then
      if sink e then
        ((LinkDecl hdrs sink filt rest (filt e.key s).2).1,
         (LinkDecl hdrs sink filt rest (filt e.key s).2).2.1,
         e :: (LinkDecl hdrs sink filt rest (filt e.key s).2).2.2)
      else (false, (filt e.key s).2, [e])
    else LinkDecl hdrs sink filt rest (filt e.key s).2

/-- The symbol filter of `LinkFunctions` / `LinkGlobalVars`: the key is
accepted if it is present in the exact exported map, or else (the `||` is
short-circuit, so the memoized regex state is untouched on an exact hit) if
`QueryRegexMatches` accepts it against the category's combined wildcard
expression. -/
def symbolFilterWithMap (declKeys : List String) (expr : Option String)
    (key : String) (matched : List String) : Bool × List String :=
  if key ∈ declKeys then (true, matched)
  else QueryRegexMatches matched expr key

/-- The trivial symbol filter used by `LinkTypes` for all nine type
categories. -/
def typeFilter (_key : String) (s : Unit) : Bool × Unit := (true, s)

/-- `HeaderAbiLinker::LinkTypes`: each of the nine type categories is walked
by `LinkDecl` with the trivial filter; the conjunction short-circuits at the
first failing category. -/
def LinkTypes (hdrs : List String) (sink : Elem → Bool)
    (cats : List (List Elem)) : Bool :=
  cats.all fun src => (LinkDecl hdrs sink typeFilter src ()).1

/-- The exported-symbol state produced by the export resolver: the exact
function and global maps (key with an opaque ELF descriptor payload) and the
compiled wildcard expressions for the two categories. -/
structure ExportState where
  fnMap : List (String × Nat)
  gvMap : List (String × Nat)
  fnExpr : Option String
  gvExpr : Option String

/-- The parse result of the version-script collaborator: exact maps plus
wildcard pattern sets for functions and globals. -/
structure VsInfo where
  fnMap : List (String × Nat)
  gvMap : List (String × Nat)
  fnPatterns : List String
  gvPatterns : List String

/-- The configuration of one run, as `main` hands it to `HeaderAbiLinker`. -/
structure LinkInput where
  soFile : String
  versionScript : String
  exportedHeaderDirs : List String
  noFilterFlag : Bool

/-- The external collaborators of one run: header collection, the two export
resolvers (`none` models a parse failure), the two write methods of the
output sink (`IRDumper::AddElfSymbolMessageIR` on ELF symbol records and
`IRDumper::AddLinkableMessageIR` on declarations), and the final
`IRDumper::Dump`. -/
structure Collaborators where
  collectExportedHeaders : List String → List String
  parseSoFile : Option (List (String × Nat) × List (String × Nat))
  parseVersionScript : Option VsInfo
  elfSinkAccepts : String → Bool
  declSinkAccepts : Elem → Bool
  dumpOk : Bool

/-- The merged graph as the linking phase walks it: the nine type category
maps, the function map and the global-variable map. -/
structure MergedReader where
  types : List (List Elem)
  functions : List Elem
  globalVariables : List Elem

/-- The exported header set of a run: `LinkAndDump` populates it from the
export include directories only inside the `-so` branch; in version-script
mode the member keeps its default (empty) value. -/
def exportedHeadersOf (inp : LinkInput) (c : Collaborators) : List String :=
  if inp.soFile = "" then [] else c.collectExportedHeaders inp.exportedHeaderDirs

/-- Export resolution of `LinkAndDump`: with a non-empty `-so` path the
shared object is parsed (the member regexes stay default-constructed); else
the version script is parsed and the two wildcard pattern sets are compiled
by `CreateRegexMatchExprFromSet`. -/
def resolveExports (inp : LinkInput) (c : Collaborators) : Option ExportState :=
  if inp.soFile ≠ "" then
    c.parseSoFile.map fun p => ⟨p.1, p.2, none, none⟩
  else
    c.parseVersionScript.map fun v =>
      ⟨v.fnMap, v.gvMap, CreateRegexMatchExprFromSet v.fnPatterns,
        CreateRegexMatchExprFromSet v.gvPatterns⟩

/-- The static helper `AddElfSymbols`: writes every descriptor of one exact
map to the sink, stopping at the first rejected record. -/
def AddElfSymbolsMap (accepts : String → Bool) : List (String × Nat) → Bool
  | [] => true
  | (k, _) :: rest => if accepts k then AddElfSymbolsMap accepts rest else false

/-- `HeaderAbiLinker::AddElfSymbols`: the function map is written first, the
global map only if that succeeded. -/
def AddElfSymbols (accepts : String → Bool)
    (fnMap gvMap : List (String × Nat)) : Bool :=
  AddElfSymbolsMap accepts fnMap && AddElfSymbolsMap accepts gvMap

/-- `HeaderAbiLinker::LinkAndDump`: resolve exports (failure aborts), write
the exported-symbol records (the source discards the result of this call),
then link the type categories, the functions and the global variables with
fresh memoized regex state, then serialize.  The merged reader stands for
the outcome of the aggregation phase. -/
def LinkAndDump (inp : LinkInput) (c : Collaborators) (m : MergedReader) : Bool :=
  match resolveExports inp c with
  | none => false
  | some ex =>
    let hdrs := exportedHeadersOf inp c
    let _elfWriteOk := AddElfSymbols c.elfSinkAccepts ex.fnMap ex.gvMap
    if !(LinkTypes hdrs c.declSinkAccepts m.types) then false
    else if !(LinkDecl hdrs c.declSinkAccepts
        (symbolFilterWithMap (ex.fnMap.map Prod.fst) ex.fnExpr)
        m.functions ([] : List String)).1 then false
    else if !(LinkDecl hdrs c.declSinkAccepts
        (symbolFilterWithMap (ex.gvMap.map Prod.fst) ex.gvExpr)
        m.globalVariables ([] : List String)).1 then false
    else c.dumpOk

/-- `main` from the source: after option parsing, it rejects (exit `-1`)
exactly when both `-so` and `-v` are empty; `-no-filter` clears the export
include directories; then the exit status reflects `LinkAndDump`. -/
def mainRun (inp : LinkInput) (c : Collaborators) (m : MergedReader) : Int :=
  if inp.soFile = "" ∧ inp.versionScript = "" then -1
  else
    let dirs := if inp.noFilterFlag then [] else inp.exportedHeaderDirs
    if LinkAndDump { inp with exportedHeaderDirs := dirs } c m then 0 else -1

/-- C3: refuted by the source.  `main` rejects only the case where both
`-so` and `-v` are empty; when both are supplied it proceeds (the shared
object takes precedence) and a run whose collaborators all succeed exits 0,
not non-zero. -/
theorem both_modes_accepted_counterexample :
    mainRun ⟨"lib.so", "v.map", [], false⟩
      ⟨fun _ => [], some ([], []), none, fun _ => true, fun _ => true, true⟩
      ⟨[], [], []⟩ = 0 := by
  decide

/-- C3 amended: the program exits non-zero with a diagnostic exactly when
neither `-so` nor `-v` is supplied; when both are supplied it is not
rejected: it proceeds in shared-object mode, and the version-script
collaborator has no influence on the outcome of the run. -/
theorem mode_flags_amended :
    (∀ (dirs : List String) (nf : Bool) (c : Collaborators) (m : MergedReader),
      mainRun ⟨"", "", dirs, nf⟩ c m = -1) ∧
    (∀ (inp : LinkInput) (c : Collaborators) (pv pv' : Option VsInfo)
        (m : MergedReader), inp.soFile ≠ "" →
      LinkAndDump inp { c with parseVersionScript := pv } m =
        LinkAndDump inp { c with parseVersionScript := pv' } m) := by
  constructor
  · intro dirs nf c m
    simp [mainRun]
  · intro inp c pv pv' m h
    simp [LinkAndDump, resolveExports, exportedHeadersOf, h]

theorem mode_flags_amended_witness :
    ("lib.so" : String) ≠ "" ∧
    LinkAndDump ⟨"lib.so", "v.map", [], false⟩
      ⟨fun _ => [], some ([], []), some ⟨[], [], [], []⟩,
        fun _ => true, fun _ => true, true⟩ ⟨[], [], []⟩ =
    LinkAndDump ⟨"lib.so", "v.map", [], false⟩
      ⟨fun _ => [], some ([], []), none, fun _ => true, fun _ => true, true⟩
      ⟨[], [], []⟩ :=
  ⟨by decide,
    mode_flags_amended.2 ⟨"lib.so", "v.map", [], false⟩
      ⟨fun _ => [], some ([], []), none, fun _ => true, fun _ => true, true⟩
      (some ⟨[], [], [], []⟩) none ⟨[], [], []⟩ (by decide)⟩

/-- C9: the source deviates from the claim (a slip in the code, not in the
claim): `AddElfSymbols` carefully reports write failures, but `LinkAndDump`
discards its result, so a run whose output sink rejects every
exported-symbol record written before category iteration still completes
and exits 0: here the ELF write fails (`AddElfSymbols` reports `false`) yet
`main` returns 0. -/
theorem elf_sink_rejection_ignored :
    AddElfSymbols (fun _ => false) [("f1", 0)] [] = false ∧
    mainRun ⟨"lib.so", "", [], false⟩
      ⟨fun _ => [], some ([("f1", 0)], []), none,
        fun _ => false, fun _ => true, true⟩ ⟨[], [], []⟩ = 0 := by
  decide

/-- C10: in version-script mode (`-so` empty) the exported header set is
never populated — it is computed from the export include directories only in
the `-so` branch — so it stays empty and no declaration is ever rejected by
the provenance filter, regardless of the `-I` directories and of what the
header-collection collaborator would return. -/
theorem version_script_mode_headers_empty (inp : LinkInput)
    (c : Collaborators) (h : inp.soFile = "") :
    exportedHeadersOf inp c = [] ∧
    ∀ e : Elem, ¬ ProvenanceSkip (exportedHeadersOf inp c) e := by
  have h1 : exportedHeadersOf inp c = [] := by simp [exportedHeadersOf, h]
  refine ⟨h1, fun e hskip => ?_⟩
  rw [h1] at hskip
  exact hskip.1 rfl

theorem version_script_mode_headers_empty_witness :
    exportedHeadersOf ⟨"", "v.map", ["include"], false⟩
      ⟨fun _ => ["h1"], none, some ⟨[], [], [], []⟩,
        fun _ => true, fun _ => true, true⟩ = [] ∧
    ¬ ProvenanceSkip
      (exportedHeadersOf ⟨"", "v.map", ["include"], false⟩
        ⟨fun _ => ["h1"], none, some ⟨[], [], [], []⟩,
          fun _ => true, fun _ => true, true⟩)
      ⟨"k", "outside.h"⟩ := by
  have h := version_script_mode_headers_empty ⟨"", "v.map", ["include"], false⟩
    ⟨fun _ => ["h1"], none, some ⟨[], [], [], []⟩,
      fun _ => true, fun _ => true, true⟩ rfl
  exact ⟨h.1, h.2 ⟨"k", "outside.h"⟩⟩

/-- C5: a declaration is forwarded to the output sink only if the exported
header set is empty, or its provenance is empty, or the set contains its
provenance; and on the spec's concrete scenario with exported header set
`{A}` only the declarations with provenance `A` and with empty provenance
survive, while with an empty exported header set all three survive. -/
theorem provenance_filter_correct :
    (∀ (σ : Type) (hdrs : List String) (sink : Elem → Bool)
        (filt : String → σ → Bool × σ) (src : List Elem) (s : σ) (e : Elem),
      e ∈ (LinkDecl hdrs sink filt src s).2.2 →
      hdrs = [] ∨ e.sourceFile = "" ∨ e.sourceFile ∈ hdrs) ∧
    (LinkDecl ["A"] (fun _ => true) typeFilter
      [⟨"x", "A"⟩, ⟨"y", "B"⟩, ⟨"z", ""⟩] ()).2.2 = [⟨"x", "A"⟩, ⟨"z", ""⟩] ∧
    (LinkDecl [] (fun _ => true) typeFilter
      [⟨"x", "A"⟩, ⟨"y", "B"⟩, ⟨"z", ""⟩] ()).2.2 =
        [⟨"x", "A"⟩, ⟨"y", "B"⟩, ⟨"z", ""⟩] := by
  refine ⟨?_, by decide, by decide⟩
  intro σ hdrs sink filt src
  induction src with
  | nil =>
      intro s e h
      simp [LinkDecl] at h
  | cons a rest ih =>
      intro s e h
      by_cases hp : ProvenanceSkip hdrs a
      · rw [LinkDecl, if_pos hp] at h
        exact ih _ e h
      · rw [LinkDecl, if_neg hp] at h
        have hnot : hdrs = [] ∨ a.sourceFile = "" ∨ a.sourceFile ∈ hdrs := by
          unfold ProvenanceSkip at hp
          push_neg at hp
          by_cases h1 : hdrs = []
          · exact Or.inl h1
          · by_cases h2 : a.sourceFile = ""
            · exact Or.inr (Or.inl h2)
            · exact Or.inr (Or.inr (hp h1 h2))
        by_cases hf : (filt a.key s).1 = true
        · rw [if_pos hf] at h
          by_cases hs : sink a = true
          · rw [if_pos hs] at h
            rcases List.mem_cons.mp h with rfl | h
            · exact hnot
            · exact ih _ e h
          · rw [if_neg hs] at h
            rcases List.mem_singleton.mp h with rfl
            exact hnot
        · rw [if_neg hf] at h
          exact ih _ e h

theorem provenance_filter_correct_witness :
    (Elem.mk "x" "A") ∈ (LinkDecl ["A"] (fun _ => true) typeFilter
      [⟨"x", "A"⟩, ⟨"y", "B"⟩, ⟨"z", ""⟩] ()).2.2 ∧
    ((["A"] : List String) = [] ∨ (Elem.mk "x" "A").sourceFile = "" ∨
      (Elem.mk "x" "A").sourceFile ∈ (["A"] : List String)) :=
  ⟨by decide,
    provenance_filter_correct.1 Unit ["A"] (fun _ => true) typeFilter
      [⟨"x", "A"⟩, ⟨"y", "B"⟩, ⟨"z", ""⟩] () ⟨"x", "A"⟩ (by decide)⟩

/-- C8: `QueryRegexMatches` reports a match for a key at most once: a
successful query records the key in the matched set, and any query of a key
already recorded returns `false` and leaves the set unchanged, so a repeated
filter pass over the same key cannot forward it again. -/
theorem query_regex_memoized_once (m : List String) (expr : Option String)
    (k : String) (h : (QueryRegexMatches m expr k).1 = true) :
    (QueryRegexMatches m expr k).2 = k :: m ∧
    ∀ m' : List String, k ∈ m' → QueryRegexMatches m' expr k = (false, m') := by
  constructor
  · by_cases h1 : k ∈ m
    · rw [QueryRegexMatches, if_pos h1] at h
      simp at h
    · by_cases h2 : regexSearchOpt expr k = true
      · rw [QueryRegexMatches, if_neg h1, if_pos h2]
      · rw [QueryRegexMatches, if_neg h1, if_neg h2] at h
        simp at h
  · intro m' hm'
    rw [QueryRegexMatches, if_pos hm']

theorem query_regex_memoized_once_witness :
    (QueryRegexMatches [] (some "(\\bfoo\\b)") "foo").2 = ["foo"] ∧
    QueryRegexMatches ["foo"] (some "(\\bfoo\\b)") "foo" = (false, ["foo"]) :=
  ⟨(query_regex_memoized_once [] (some "(\\bfoo\\b)") "foo" (by decide)).1,
    (query_regex_memoized_once [] (some "(\\bfoo\\b)") "foo" (by decide)).2
      ["foo"] (by decide)⟩

theorem symbolFilterWithMap_true_cases (declKeys : List String)
    (expr : Option String) (key : String) (s : List String)
    (h : (symbolFilterWithMap declKeys expr key s).1 = true) :
    key ∈ declKeys ∨ regexSearchOpt expr key = true := by
  by_cases h1 : key ∈ declKeys
  · exact Or.inl h1
  · rw [symbolFilterWithMap, if_neg h1] at h
    by_cases h2 : key ∈ s
    · rw [QueryRegexMatches, if_pos h2] at h
      simp at h
    · by_cases h3 : regexSearchOpt expr key = true
      · exact Or.inr h3
      · rw [QueryRegexMatches, if_neg h2, if_neg h3] at h
        simp at h

/-- C6: when every sink write succeeds, a function or global variable of the
merged graph that passes the provenance filter and whose key is in the exact
exported map is always forwarded, whatever the wildcard expression and
whatever the memoized matched set already contains; and conversely every
forwarded element's key is in the exact map or is accepted by the category's
combined wildcard expression. -/
theorem exact_map_acceptance (hdrs : List String) (declKeys : List String)
    (expr : Option String) (sink : Elem → Bool) (src : List Elem)
    (s0 : List String) (hsink : ∀ e, sink e = true) :
    (∀ e ∈ src, ¬ ProvenanceSkip hdrs e → e.key ∈ declKeys →
      e ∈ (LinkDecl hdrs sink (symbolFilterWithMap declKeys expr) src s0).2.2) ∧
    (∀ e ∈ (LinkDecl hdrs sink (symbolFilterWithMap declKeys expr) src s0).2.2,
      e.key ∈ declKeys ∨ regexSearchOpt expr e.key = true) := by
  constructor
  · induction src generalizing s0 with
    | nil =>
        intro e he
        simp at he
    | cons a rest ih =>
        intro e he hskip hkey
        rcases List.mem_cons.mp he with rfl | he
        · rw [LinkDecl, if_neg hskip]
          have hf : (symbolFilterWithMap declKeys expr e.key s0).1 = true := by
            rw [symbolFilterWithMap, if_pos hkey]
          rw [if_pos hf, if_pos (hsink e)]
          exact List.mem_cons_self _ _
        · by_cases hp : ProvenanceSkip hdrs a
          · rw [LinkDecl, if_pos hp]
            exact ih s0 e he hskip hkey
          · rw [LinkDecl, if_neg hp]
            by_cases hf : (symbolFilterWithMap declKeys expr a.key s0).1 = true
            · rw [if_pos hf, if_pos (hsink a)]
              exact List.mem_cons_of_mem _ (ih _ e he hskip hkey)
            · rw [if_neg hf]
              exact ih _ e he hskip hkey
  · induction src generalizing s0 with
    | nil =>
        intro e he
        simp [LinkDecl] at he
    | cons a rest ih =>
        intro e he
        by_cases hp : ProvenanceSkip hdrs a
        · rw [LinkDecl, if_pos hp] at he
          exact ih s0 e he
        · rw [LinkDecl, if_neg hp] at he
          by_cases hf : (symbolFilterWithMap declKeys expr a.key s0).1 = true
          · rw [if_pos hf] at he
            by_cases hs : sink a = true
            · rw [if_pos hs] at he
              rcases List.mem_cons.mp he with rfl | he
              · exact symbolFilterWithMap_true_cases _ _ _ _ hf
              · exact ih _ e he
            · rw [if_neg hs] at he
              rcases List.mem_singleton.mp he with rfl
              exact symbolFilterWithMap_true_cases _ _ _ _ hf
          · rw [if_neg hf] at he
            exact ih _ e he

theorem exact_map_acceptance_witness :
    (Elem.mk "f1" "") ∈ (LinkDecl [] (fun _ => true)
      (symbolFilterWithMap ["f1"] none) [⟨"f1", ""⟩] ([] : List String)).2.2 :=
  (exact_map_acceptance [] ["f1"] none (fun _ => true) [⟨"f1", ""⟩] []
    (fun _ => rfl)).1 ⟨"f1", ""⟩ (by decide) (by decide) (by decide)

theorem mem_suffixes (xs s : List Char) :
    s ∈ suffixes xs ↔ ∃ k, k ≤ xs.length ∧ s = xs.drop k := by
  induction xs with
  | nil =>
      simp only [suffixes, List.mem_singleton]
      constructor
      · rintro rfl
        exact ⟨0, Nat.le_refl _, rfl⟩
      · rintro ⟨k, _, rfl⟩
        simp
  | cons c rest ih =>
      simp only [suffixes, List.mem_cons]
      constructor
      · rintro (rfl | hs)
        · exact ⟨0, Nat.zero_le _, rfl⟩
        · obtain ⟨k, hk, rfl⟩ := ih.mp hs
          exact ⟨k + 1, by simpa using hk, by simp⟩
      · rintro ⟨k, hk, rfl⟩
        cases k with
        | zero => exact Or.inl rfl
        | succ k' =>
            refine Or.inr (ih.mpr ⟨k', ?_, ?_⟩)
            · simpa using hk
            · simp

theorem toksMatch_anyStr (ts : List GlobTok) (xs : List Char) :
    toksMatch (GlobTok.anyStr :: ts) xs = true ↔
      ∃ k, toksMatch ts (xs.drop k) = true := by
  rw [toksMatch, List.any_eq_true]
  constructor
  · rintro ⟨suf, hsuf, hm⟩
    obtain ⟨k, _, rfl⟩ := (mem_suffixes xs suf).mp hsuf
    exact ⟨k, hm⟩
  · rintro ⟨k, hm⟩
    by_cases hk : k ≤ xs.length
    · exact ⟨xs.drop k, (mem_suffixes xs _).mpr ⟨k, hk, rfl⟩, hm⟩
    · refine ⟨[], (mem_suffixes xs []).mpr ⟨xs.length, Nat.le_refl _, by simp⟩, ?_⟩
      rwa [List.drop_eq_nil_of_le (by omega)] at hm

/-- C7: the compiled matcher translates `*` to an arbitrary-substring match
(the any-substring atom accepts exactly the keys with some matching suffix
split) and anchors each pattern at word boundaries: through the full
compile-and-search pipeline, `foo_*` accepts `foo_bar` and `foo_baz` but not
`xfoo_bar`, and `foo` does not match inside `foobar`. -/
theorem wildcard_boundary_semantics :
    (∀ (ts : List GlobTok) (xs : List Char),
      toksMatch (GlobTok.anyStr :: ts) xs = true ↔
        ∃ k, toksMatch ts (xs.drop k) = true) ∧
    regexSearchOpt (CreateRegexMatchExprFromSet ["foo_*"]) "foo_bar" = true ∧
    regexSearchOpt (CreateRegexMatchExprFromSet ["foo_*"]) "foo_baz" = true ∧
    regexSearchOpt (CreateRegexMatchExprFromSet ["foo_*"]) "xfoo_bar" = false ∧
    regexSearchOpt (CreateRegexMatchExprFromSet ["foo"]) "foobar" = false :=
  ⟨toksMatch_anyStr, by decide, by decide, by decide, by decide⟩

theorem wildcard_boundary_semantics_witness :
    toksMatch [GlobTok.anyStr] ['a'] = true :=
  (wildcard_boundary_semantics.1 [] ['a']).mpr ⟨1, by decide⟩

/-- C4: refuted by the source.  `CreateRegexMatchExprFromSet` escapes
nothing: only `*` is rewritten (to `.*`), so a regex-significant character
such as `.` keeps its regex meaning instead of matching only itself — the
pattern `f.o` accepts the key `fxo`, which the escaping compilation the
claim describes would reject. -/
theorem wildcard_no_escape_counterexample :
    regexSearchOpt (CreateRegexMatchExprFromSet ["f.o"]) "fxo" = true ∧
    specEscapedSetSearch ["f.o"] "fxo" = false ∧
    specEscapedSetSearch ["f.o"] "f.o" = true := by
  decide

/-- The pattern-character fragment over which the generated expressions are
modelled: word characters, the `*` glob, and the regex-significant `.`. -/
def SupportedPatternChar (c : Char) : Prop :=
  isWordChar c = true ∨ c = '*' ∨ c = '.'

theorem far_chars (l : List Char) (c : Char)
    (h : c ∈ FindAndReplaceStar l) : c = '.' ∨ c = '*' ∨ c ∈ l := by
  induction l with
  | nil => simp [FindAndReplaceStar] at h
  | cons a rest ih =>
      rw [FindAndReplaceStar] at h
      by_cases ha : a = '*'
      · rw [if_pos ha] at h
        rcases List.mem_cons.mp h with rfl | h
        · exact Or.inl rfl
        · rcases List.mem_cons.mp h with rfl | h
          · exact Or.inr (Or.inl rfl)
          · rcases ih h with h | h | h
            · exact Or.inl h
            · exact Or.inr (Or.inl h)
            · exact Or.inr (Or.inr (List.mem_cons_of_mem _ h))
      · rw [if_neg ha] at h
        rcases List.mem_cons.mp h with rfl | h
        · exact Or.inr (Or.inr (List.mem_cons_self _ _))
        · rcases ih h with h | h | h
          · exact Or.inl h
          · exact Or.inr (Or.inl h)
          · exact Or.inr (Or.inr (List.mem_cons_of_mem _ h))

theorem splitOnPipe_ne_nil (s : List Char) : splitOnPipe s ≠ [] := by
  cases s with
  | nil => simp [splitOnPipe]
  | cons c rest =>
      rw [splitOnPipe]
      by_cases h : c = '|'
      · simp [if_pos h]
      · rw [if_neg h]
        cases hsp : splitOnPipe rest <;> simp

theorem splitOnPipe_cons_ne (c : Char) (rest : List Char) (h : c ≠ '|') :
    splitOnPipe (c :: rest) =
      (c :: (splitOnPipe rest).headD []) :: (splitOnPipe rest).tail := by
  rw [splitOnPipe, if_neg h]
  cases hsp : splitOnPipe rest with
  | nil => exact absurd hsp (splitOnPipe_ne_nil rest)
  | cons g gs => simp

theorem splitOnPipe_no_pipe (s : List Char) (h : '|' ∉ s) :
    splitOnPipe s = [s] := by
  induction s with
  | nil => rfl
  | cons c rest ih =>
      have hc : c ≠ '|' := fun hh => h (hh ▸ List.mem_cons_self _ _)
      rw [splitOnPipe_cons_ne c rest hc, ih (fun hm => h (List.mem_cons_of_mem _ hm))]
      simp

theorem splitOnPipe_append (s t : List Char) (h : '|' ∉ s) :
    splitOnPipe (s ++ '|' :: t) = s :: splitOnPipe t := by
  induction s with
  | nil =>
      simp only [List.nil_append]
      rw [splitOnPipe, if_pos rfl]
  | cons c rest ih =>
      have hc : c ≠ '|' := fun hh => h (hh ▸ List.mem_cons_self _ _)
      have ih' := ih (fun hm => h (List.mem_cons_of_mem _ hm))
      rw [List.cons_append, splitOnPipe_cons_ne c _ hc, ih']
      simp

theorem parseBody_far (p : List Char)
    (hp : ∀ c ∈ p, SupportedPatternChar c) :
    parseBody (FindAndReplaceStar p ++ ['\\', 'b', ')']) = some (globToks p) := by
  induction p with
  | nil => decide
  | cons c p' ih =>
      have hc := hp c (List.mem_cons_self _ _)
      have hrest : ∀ x ∈ p', SupportedPatternChar x :=
        fun x hx => hp x (List.mem_cons_of_mem _ hx)
      have ih' := ih hrest
      by_cases hstar : c = '*'
      · subst hstar
        rw [FindAndReplaceStar, if_pos rfl, globToks, if_pos rfl]
        rw [List.cons_append, List.cons_append, parseBody.eq_3]
        rw [if_neg (fun hb => absurd hb.1 (by decide)), if_pos rfl, if_pos rfl, ih']
        rfl
      · by_cases hdot : c = '.'
        · subst hdot
          have hshape : ∃ d ds,
              FindAndReplaceStar p' ++ ['\\', 'b', ')'] = d :: ds ∧ d ≠ '*' := by
            cases hfp : FindAndReplaceStar p' with
            | nil => exact ⟨'\\', ['b', ')'], by simp [hfp], by decide⟩
            | cons d ds =>
                refine ⟨d, ds ++ ['\\', 'b', ')'], by simp [hfp], ?_⟩
                cases p' with
                | nil => simp [FindAndReplaceStar] at hfp
                | cons e p'' =>
                    rw [FindAndReplaceStar] at hfp
                    by_cases he : e = '*'
                    · rw [if_pos he] at hfp
                      have hde : d = '.' := (List.cons.injEq _ _ _ _ ▸ hfp).1.symm
                      rw [hde]
                      decide
                    · rw [if_neg he] at hfp
                      have hde : d = e := (List.cons.injEq _ _ _ _ ▸ hfp).1.symm
                      rw [hde]
                      exact he
          obtain ⟨d, ds, heq, hd⟩ := hshape
          rw [FindAndReplaceStar, if_neg (by decide), globToks,
            if_neg (by decide), if_pos rfl]
          rw [List.cons_append, heq, parseBody.eq_3]
          rw [if_neg (fun hb => absurd hb.1 (by decide)), if_pos rfl, if_neg hd]
          rw [← heq, ih']
          rfl
        · have hw : isWordChar c = true := by
            rcases hc with hw | hs | hdd
            · exact hw
            · exact absurd hs hstar
            · exact absurd hdd hdot
          have hbs : c ≠ '\\' := by
            intro hh
            rw [hh] at hw
            exact absurd hw (by decide)
          rw [FindAndReplaceStar, if_neg hstar, globToks, if_neg hstar, if_neg hdot]
          rw [List.cons_append]
          have hshape2 : ∃ d ds,
              FindAndReplaceStar p' ++ ['\\', 'b', ')'] = d :: ds := by
            cases FindAndReplaceStar p' with
            | nil => exact ⟨'\\', ['b', ')'], by simp⟩
            | cons d ds => exact ⟨d, ds ++ ['\\', 'b', ')'], by simp⟩
          obtain ⟨d, ds, heq⟩ := hshape2
          rw [heq, parseBody.eq_3]
          rw [if_neg (fun hb => absurd hb.1 hbs), if_neg hdot, if_pos hw]
          rw [← heq, ih']
          rfl

theorem regexPiece_data (p : String) :
    (regexPiece p).data =
      '(' :: '\\' :: 'b' :: (FindAndReplaceStar p.data ++ ['\\', 'b', ')']) := by
  simp [regexPiece, String.data_append]

theorem parsePiece_piece (p : String)
    (hp : ∀ c ∈ p.data, SupportedPatternChar c) :
    parsePiece (regexPiece p).data = some (globToks p.data) := by
  rw [regexPiece_data]
  show parseBody (FindAndReplaceStar p.data ++ ['\\', 'b', ')']) =
    some (globToks p.data)
  exact parseBody_far p.data hp

theorem pipe_not_mem_piece (p : String)
    (hp : ∀ c ∈ p.data, SupportedPatternChar c) :
    '|' ∉ (regexPiece p).data := by
  rw [regexPiece_data]
  intro hmem
  have hfar : '|' ∉ FindAndReplaceStar p.data := by
    intro h
    rcases far_chars p.data '|' h with h | h | h
    · exact absurd h (by decide)
    · exact absurd h (by decide)
    · rcases hp '|' h with hh | hh | hh
      · exact absurd hh (by decide)
      · exact absurd hh (by decide)
      · exact absurd hh (by decide)
  rcases List.mem_cons.mp hmem with h | hmem2
  · exact absurd h (by decide)
  rcases List.mem_cons.mp hmem2 with h | hmem3
  · exact absurd h (by decide)
  rcases List.mem_cons.mp hmem3 with h | hmem4
  · exact absurd h (by decide)
  rcases List.mem_append.mp hmem4 with h | h
  · exact hfar h
  · exact absurd h (by decide)

instance (c : Char) : Decidable (SupportedPatternChar c) := by
  unfold SupportedPatternChar
  infer_instance

theorem any_map_comp {A B : Type} (l : List A) (f : A -> B) (g : B -> Bool) :
    (l.map f).any g = l.any (fun a => g (f a)) := by
  induction l with
  | nil => rfl
  | cons a l ih => simp [List.map_cons, List.any_cons, ih]

theorem parseAlternation_build (pats : List String)
    (hp : ∀ p ∈ pats, ∀ c ∈ p.data, SupportedPatternChar c) (hne : pats ≠ []) :
    parseAlternation (buildAlternation pats).data =
      some (pats.map (fun p => globToks p.data)) := by
  induction pats with
  | nil => exact absurd rfl hne
  | cons p rest ih =>
      have hpp : ∀ c ∈ p.data, SupportedPatternChar c :=
        hp p (List.mem_cons_self _ _)
      cases rest with
      | nil =>
          rw [show buildAlternation [p] = regexPiece p from rfl]
          unfold parseAlternation
          rw [splitOnPipe_no_pipe _ (pipe_not_mem_piece p hpp)]
          rw [parsePieces, parsePiece_piece p hpp]
          rfl
      | cons q rest' =>
          have hb : (buildAlternation (p :: q :: rest')).data =
              (regexPiece p).data ++ '|' :: (buildAlternation (q :: rest')).data := by
            show (regexPiece p ++ "|" ++ buildAlternation (q :: rest')).data = _
            simp [String.data_append]
          have ih' := ih (fun x hx => hp x (List.mem_cons_of_mem _ hx)) (by simp)
          unfold parseAlternation at ih' ⊢
          rw [hb, splitOnPipe_append _ _ (pipe_not_mem_piece p hpp)]
          rw [parsePieces, parsePiece_piece p hpp, ih']
          rfl

theorem buildAlternation_ne_empty (p : String) (rest : List String) :
    buildAlternation (p :: rest) ≠ "" := by
  intro h
  have hd : (buildAlternation (p :: rest)).data = [] := by rw [h]
  cases rest with
  | nil =>
      rw [show buildAlternation [p] = regexPiece p from rfl, regexPiece_data] at hd
      simp at hd
  | cons q rest' =>
      have hb : (buildAlternation (p :: q :: rest')).data =
          (regexPiece p).data ++ '|' :: (buildAlternation (q :: rest')).data := by
        show (regexPiece p ++ "|" ++ buildAlternation (q :: rest')).data = _
        simp [String.data_append]
      rw [hb, regexPiece_data] at hd
      simp at hd

/-- C4 amended: the source's wildcard compilation escapes nothing — every
pattern character other than `*` is passed through with its regex meaning
(in particular `.` matches any single character), and only `*` is rewritten
to an arbitrary-substring match: over the word-character / `*` / `.`
pattern fragment, the compiled matcher accepts a key exactly when some
pattern, read with `*` as any-substring, `.` as any-character and all other
characters literal, matches a word-boundary-delimited slice of the key. -/
theorem wildcard_compile_translation (pats : List String) (key : String)
    (hp : ∀ p ∈ pats, ∀ c ∈ p.data, SupportedPatternChar c) :
    regexSearchOpt (CreateRegexMatchExprFromSet pats) key =
      pats.any (fun p => searchAnchored (globToks p.data) key.data) := by
  cases pats with
  | nil => rfl
  | cons p rest =>
      have hne := buildAlternation_ne_empty p rest
      have hcre : CreateRegexMatchExprFromSet (p :: rest) =
          some (buildAlternation (p :: rest)) := by
        unfold CreateRegexMatchExprFromSet
        simp [hne]
      rw [hcre]
      show regexSearch (buildAlternation (p :: rest)) key = _
      have hparse := parseAlternation_build (p :: rest) hp (by simp)
      unfold regexSearch
      rw [hparse]
      show ((p :: rest).map (fun q => globToks q.data)).any
          (fun ts => searchAnchored ts key.data) = _
      rw [any_map_comp]

theorem wildcard_compile_translation_witness :
    regexSearchOpt (CreateRegexMatchExprFromSet ["foo_*"]) "foo_bar" =
      (["foo_*"] : List String).any
        (fun p => searchAnchored (globToks p.data) "foo_bar".data) :=
  wildcard_compile_translation ["foo_*"] "foo_bar" (by decide)
